import Mathlib

/- Verification development for the Agentic-AI conversational shopping
   assistant.  The repository ships the React frontend (Chatbot.jsx, api.js,
   IssuesPage.jsx, ...) whose behaviour is embedded here directly from the
   source.  The Django backend (intent router, retrieval engine, memory
   manager, response composer, issue ledger) is not part of this tree, so
   those components are modelled from the specification, as flagged on each
   definition. -/

namespace AgenticAI

/-! ## Memory Manager: bounded session window (spec §3, §4.4) -/

inductive Role where
  | user
  | assistant
  deriving DecidableEq

structure ConversationTurn where
  role : Role
  text : String
  timestamp : Nat
  deriving DecidableEq

/-- The session window bound N = 20. -/
def sessionBound : Nat := 20

/-- Modelled from the spec: the Memory Manager backend is not in this tree.
"appendTurn(session, turn): push to SessionContext; if length > 20, evict
oldest" (FIFO: the oldest turn is the head of the list). -/
def appendTurn (session : List ConversationTurn) (t : ConversationTurn) :
    List ConversationTurn :=
  let s := session ++ [t]
  if sessionBound < s.length then s.tail else s

/-- A concrete turn used to exercise the window. -/
def turnAt (i : Nat) : ConversationTurn := ⟨Role.user, "turn", i⟩

/-- The window obtained by appending 21 turns (numbered 0..20) to an empty
session. -/
def window21 : List ConversationTurn :=
  (List.range 21).foldl (fun s i => appendTurn s (turnAt i)) []

/-! ## Issue Ledger (spec §4.6) and the admin issues page (IssuesPage.jsx) -/

inductive IssueStatus where
  | pending
  | inProgress
  | resolved
  deriving DecidableEq

structure Issue where
  id : Nat
  userId : Nat
  message : String
  status : IssueStatus
  createdAt : Nat
  deriving DecidableEq

/-- The fixed acknowledgement returned on filing an issue (README:
"Issue Reporting Response"). -/
def issueAck : String :=
  "Your issue has been reported to the admin. They will review it shortly. Thank you for your feedback!"

/-- Modelled from the spec: the Issue Ledger backend is not in this tree.
"fileIssue(userId, text) creates an Issue with status = pending, returns a
fixed acknowledgement string". -/
def fileIssue (ledger : List Issue) (freshId uid : Nat) (text : String)
    (now : Nat) : List Issue × String :=
  (ledger ++ [⟨freshId, uid, text, IssueStatus.pending, now⟩], issueAck)

/-- Modelled from the spec: `listIssues()` lists all issues in the ledger. -/
def listIssues (ledger : List Issue) : List Issue := ledger

/-- From IssuesPage.jsx `markAsResolved`: PATCH status "resolved", and the
issue list is updated by mapping the matching id to status resolved, leaving
every other issue unchanged. -/
def markAsResolved (issues : List Issue) (issueId : Nat) : List Issue :=
  issues.map fun issue =>
    if issue.id = issueId then { issue with status := IssueStatus.resolved }
    else issue

/-- From IssuesPage.jsx `deleteIssue`: DELETE, and the issue list is updated
by filtering out the matching id. -/
def deleteIssue (issues : List Issue) (issueId : Nat) : List Issue :=
  issues.filter fun issue => decide (issue.id ≠ issueId)

/-! ## POST /chat handler (spec §6, §7): validation, retry, fallback -/

inductive GenOutcome where
  | ok (reply : String)
  | failed
  deriving DecidableEq

/-- A string is blank when every character is whitespace (so the empty string
is blank). -/
def isBlank (m : String) : Bool := m.data.all Char.isWhitespace

/-- Modelled from the spec: request validation for POST /chat; a message is
well-formed when it is not empty/whitespace-only (spec: "empty/malformed
message — returned as HTTP 400"). -/
def validMessage (m : String) : Bool := !(isBlank m)

/-- Modelled from the spec: "on transient failure retries up to 2 times";
`gen n` is the outcome of attempt `n` (attempt 0 is the initial call). -/
def callWithRetries (gen : Nat → GenOutcome) : Option String :=
  match gen 0 with
  | .ok r => some r
  | .failed =>
    match gen 1 with
    | .ok r => some r
    | .failed =>
      match gen 2 with
      | .ok r => some r
      | .failed => none

/-- The fixed fallback apology template returned after exhausted retries. -/
def fallbackReply : String :=
  "I'm sorry, I'm having trouble responding right now. Please try again."

structure ChatHttpResponse where
  status : Nat
  body : String
  deriving DecidableEq

/-- Modelled from the spec: the POST /chat view is not in this tree.
"on internal failure returns a templated apology ... with HTTP success
status — except malformed/empty input, which returns HTTP 400". -/
def handleChat (gen : Nat → GenOutcome) (message : String) : ChatHttpResponse :=
  if validMessage message then
    match callWithRetries gen with
    | some r => ⟨200, r⟩
    | none => ⟨200, fallbackReply⟩
  else ⟨400, "Invalid message"⟩

/-! ### Theorems: C3, C7, C1 -/

/-- C3: appending turns keeps the window within the bound of 20, eviction is
FIFO once the bound would be exceeded, and appending 21 turns to an empty
session yields exactly 20 turns with the 1st absent and the 21st present. -/
theorem session_window_bound :
    (∀ (s : List ConversationTurn) (t : ConversationTurn),
        s.length ≤ 20 → (appendTurn s t).length ≤ 20) ∧
    (∀ (s : List ConversationTurn) (t : ConversationTurn),
        20 < s.length + 1 → appendTurn s t = (s ++ [t]).tail) ∧
    window21.length = 20 ∧ turnAt 0 ∉ window21 ∧ turnAt 20 ∈ window21 := by
  refine ⟨?_, ?_, by decide, by decide, by decide⟩
  · intro s t h
    simp only [appendTurn, sessionBound]
    split
    · rename_i hc
      simp only [List.length_tail, List.length_append, List.length_cons,
        List.length_nil]
      omega
    · rename_i hc
      simp only [not_lt, List.length_append, List.length_cons,
        List.length_nil] at hc
      simp only [List.length_append, List.length_cons, List.length_nil]
      omega
  · intro s t h
    have hc : sessionBound < (s ++ [t]).length := by
      simp only [sessionBound, List.length_append, List.length_cons,
        List.length_nil]
      omega
    simp only [appendTurn]
    rw [if_pos hc]

/-- C3 witness: the bound-preservation and FIFO clauses at concrete inputs. -/
theorem session_window_bound_witness :
    (appendTurn [turnAt 0] (turnAt 1)).length ≤ 20 ∧
    appendTurn (List.replicate 20 (turnAt 0)) (turnAt 1)
      = (List.replicate 20 (turnAt 0) ++ [turnAt 1]).tail := by
  constructor
  · exact session_window_bound.1 [turnAt 0] (turnAt 1) (by decide)
  · exact session_window_bound.2.1 (List.replicate 20 (turnAt 0)) (turnAt 1)
      (by decide)

/-- C7: filing an issue creates it with status pending; marking that issue
resolved (the IssuesPage update) sets its status to exactly resolved and
leaves every other issue unchanged; filing then deleting removes the id from
the `listIssues` results. -/
theorem issue_lifecycle (ledger : List Issue) (freshId uid now : Nat)
    (text : String) (fresh : ∀ i ∈ ledger, i.id ≠ freshId) :
    (∀ i ∈ (fileIssue ledger freshId uid text now).1,
        i.id = freshId → i.status = IssueStatus.pending) ∧
    markAsResolved (fileIssue ledger freshId uid text now).1 freshId
      = ledger ++ [⟨freshId, uid, text, IssueStatus.resolved, now⟩] ∧
    (∀ i, i ∈ listIssues
        (deleteIssue (fileIssue ledger freshId uid text now).1 freshId) ↔
        (i ∈ ledger ∧ i.id ≠ freshId)) := by
  refine ⟨?_, ?_, ?_⟩
  · intro i hi hid
    simp only [fileIssue, List.mem_append, List.mem_singleton] at hi
    rcases hi with hi | hi
    · exact absurd hid (fresh i hi)
    · rw [hi]
  · simp only [fileIssue, markAsResolved, List.map_append]
    congr 1
    · have h : ∀ i ∈ ledger,
          (if i.id = freshId then { i with status := IssueStatus.resolved }
           else i) = id i := by
        intro i hi
        simp only [id]
        rw [if_neg (fresh i hi)]
      rw [List.map_congr_left h, List.map_id]
    · simp
  · intro i
    unfold fileIssue listIssues deleteIssue
    rw [List.filter_append]
    have hsing : List.filter (fun issue => decide (issue.id ≠ freshId))
        [(⟨freshId, uid, text, IssueStatus.pending, now⟩ : Issue)] = [] := by
      simp
    rw [hsing, List.append_nil]
    simp [List.mem_filter]

/-- C7 witness: the lifecycle at a concrete ledger. -/
theorem issue_lifecycle_witness :
    (∀ i ∈ (fileIssue [] 1 7 "checkout broken" 5).1,
        i.id = 1 → i.status = IssueStatus.pending) ∧
    markAsResolved (fileIssue [] 1 7 "checkout broken" 5).1 1
      = [] ++ [⟨1, 7, "checkout broken", IssueStatus.resolved, 5⟩] ∧
    (∀ i, i ∈ listIssues (deleteIssue (fileIssue [] 1 7 "checkout broken" 5).1 1) ↔
        (i ∈ ([] : List Issue) ∧ i.id ≠ 1)) :=
  issue_lifecycle [] 1 7 5 "checkout broken" (by simp)

/-- C1: for a well-formed message the POST /chat handler always answers with
HTTP 200; when the generation service fails on the initial call and on both
retries the body is the fixed fallback apology; the handler returns 400
exactly on malformed (trim-empty) input, and 400 is the only non-200
status. -/
theorem chat_handler_fallback_and_status (gen : Nat → GenOutcome)
    (message : String) :
    (validMessage message = true → (handleChat gen message).status = 200) ∧
    (validMessage message = true → (∀ n, n < 3 → gen n = GenOutcome.failed) →
        handleChat gen message = ⟨200, fallbackReply⟩) ∧
    ((handleChat gen message).status = 400 ↔ validMessage message = false) ∧
    ((handleChat gen message).status = 200 ∨
      (handleChat gen message).status = 400) := by
  refine ⟨?_, ?_, ?_, ?_⟩
  · intro hv
    unfold handleChat
    rw [if_pos hv]
    cases callWithRetries gen <;> rfl
  · intro hv hfail
    unfold handleChat
    rw [if_pos hv]
    have h0 := hfail 0 (by omega)
    have h1 := hfail 1 (by omega)
    have h2 := hfail 2 (by omega)
    unfold callWithRetries
    rw [h0, h1, h2]
  · unfold handleChat
    by_cases hv : validMessage message
    · rw [if_pos hv]
      cases callWithRetries gen <;> simp [hv]
    · rw [if_neg hv]
      simp only [Bool.not_eq_true] at hv
      simp [hv]
  · unfold handleChat
    split
    · cases callWithRetries gen
      · exact Or.inl rfl
      · exact Or.inl rfl
    · exact Or.inr rfl

/-- C1 witness: a well-formed message with a generation service failing on
all three attempts yields HTTP 200 with the fallback apology. -/
theorem chat_handler_fallback_and_status_witness :
    validMessage "find me earbuds" = true ∧
    handleChat (fun _ => GenOutcome.failed) "find me earbuds"
      = ⟨200, fallbackReply⟩ :=
  ⟨by decide,
    (chat_handler_fallback_and_status (fun _ => GenOutcome.failed)
      "find me earbuds").2.1 (by decide) (fun n _ => rfl)⟩

/-! ## Retrieval Engine (spec §4.2) -/

structure Product where
  id : Nat
  name : String
  description : String
  category : String
  price : ℚ
  deriving DecidableEq

/-- Ranking order on scored products: strictly higher similarity first, and
equal similarity scores ordered by ascending product id (spec §4.2
tie-break). -/
def rankRel (a b : Product × ℚ) : Prop :=
  b.2 < a.2 ∨ (a.2 = b.2 ∧ a.1.id ≤ b.1.id)

instance : DecidableRel rankRel := fun a b => by
  unfold rankRel
  exact inferInstance

instance : IsTotal (Product × ℚ) rankRel := ⟨by
  intro a b
  rcases lt_trichotomy a.2 b.2 with h | h | h
  · exact Or.inr (Or.inl h)
  · rcases Nat.le_total a.1.id b.1.id with h2 | h2
    · exact Or.inl (Or.inr ⟨h, h2⟩)
    · exact Or.inr (Or.inr ⟨h.symm, h2⟩)
  · exact Or.inl (Or.inl h)⟩

instance : IsTrans (Product × ℚ) rankRel := ⟨by
  intro a b c hab hbc
  rcases hab with h | ⟨he, hi⟩
  · rcases hbc with h2 | ⟨he2, _⟩
    · exact Or.inl (h2.trans h)
    · exact Or.inl (he2 ▸ h)
  · rcases hbc with h2 | ⟨he2, hi2⟩
    · exact Or.inl (he ▸ h2)
    · exact Or.inr ⟨he.trans he2, hi.trans hi2⟩⟩

/-- A product clears the minimum similarity floor when its similarity to the
query is at least the floor. -/
def clearsFloor (sim : Product → ℚ) (minScore : ℚ) (p : Product) : Bool :=
  decide (minScore ≤ sim p)

/-- Modelled from the spec: the Retrieval Engine backend is not in this tree.
`search(queryText, k, filters)`: embed the query (`sim q` scores each product
against query text `q`), keep products passing the structured filters and the
minimum similarity floor, order highest-similarity first with ties by
ascending product id, and truncate to at most `k` results. -/
def search (sim : String → Product → ℚ) (q : String) (minScore : ℚ)
    (filters : Product → Bool) (catalog : List Product) (k : Nat) :
    List (Product × ℚ) :=
  let candidates :=
    (catalog.filter fun p => filters p && clearsFloor (sim q) minScore p).map
      fun p => (p, sim q p)
  (List.insertionSort rankRel candidates).take k

/-! ## Catalog Index Builder (spec §4.1) -/

structure IndexData where
  sourceHash : Nat
  dimension : Nat
  entryCount : Nat
  vectors : List (List ℚ)
  idMap : List Nat
  deriving DecidableEq

inductive IndexBuildError where
  | embeddingUnreachable
  deriving DecidableEq

/-- The text that is embedded for a product. -/
def productText (p : Product) : String := p.name ++ " " ++ p.description

/-- Embed every product of the catalog; fails as soon as the embedding
service is unreachable on some call. -/
def buildVectors (embed : String → Except Unit (List ℚ)) :
    List Product → Except Unit (List (List ℚ))
  | [] => .ok []
  | p :: ps =>
    match embed (productText p) with
    | .error e => .error e
    | .ok v =>
      match buildVectors embed ps with
      | .error e => .error e
      | .ok vs => .ok (v :: vs)

/-- The dimension recorded for a vector set. -/
def dimensionOf : List (List ℚ) → Nat
  | [] => 0
  | v :: _ => v.length

/-- Modelled from the spec: the Catalog Index Builder backend is not in this
tree.  `ensureIndex(catalog)`: compute the content hash of the catalog; if it
matches the stored metadata return the existing index handle unchanged (the
Bool result is the rebuilt flag, false on a cache hit); otherwise rebuild by
embedding every product, failing with IndexBuildError when the embedding
service is unreachable. -/
def ensureIndex (hash : List Product → Nat)
    (embed : String → Except Unit (List ℚ)) (catalog : List Product)
    (current : Option IndexData) :
    Except IndexBuildError (IndexData × Bool) :=
  let h := hash catalog
  let rebuild : Except IndexBuildError (IndexData × Bool) :=
    match buildVectors embed catalog with
    | .ok vecs =>
      .ok (⟨h, dimensionOf vecs, catalog.length, vecs, catalog.map Product.id⟩,
        true)
    | .error _ => .error .embeddingUnreachable
  match current with
  | some st => if st.sourceHash = h then .ok (st, false) else rebuild
  | none => rebuild

/-- The index that is serving after an `ensureIndex` attempt: on success the
returned handle, on failure the previously stored index (spec §4.1: "the
previous index (if any) remains valid and in use"). -/
def servingIndex (hash : List Product → Nat)
    (embed : String → Except Unit (List ℚ)) (catalog : List Product)
    (current : Option IndexData) : Option IndexData × Option IndexBuildError :=
  match ensureIndex hash embed catalog current with
  | .ok (st, _) => (some st, none)
  | .error e => (current, some e)

/-! ### Theorems: C2, C5, C6 -/

/-- C2: `search` returns at most k results, ordered by non-increasing
similarity with equal scores by ascending product id (`rankRel`); when no
catalog product clears the similarity floor the result is the empty list; and
every returned pair carries the product's similarity score. -/
theorem search_contract (sim : String → Product → ℚ) (q : String)
    (minScore : ℚ) (filters : Product → Bool) (catalog : List Product)
    (k : Nat) (hk : 1 ≤ k) :
    (search sim q minScore filters catalog k).length ≤ k ∧
    List.Sorted rankRel (search sim q minScore filters catalog k) ∧
    ((∀ p ∈ catalog, clearsFloor (sim q) minScore p = false) →
        search sim q minScore filters catalog k = []) ∧
    (∀ pr ∈ search sim q minScore filters catalog k, pr.2 = sim q pr.1) := by
  refine ⟨?_, ?_, ?_, ?_⟩
  · unfold search
    exact List.length_take_le k _
  · unfold search
    exact (List.sorted_insertionSort rankRel _).sublist (List.take_sublist _ _)
  · intro hfloor
    unfold search
    have hfilt : catalog.filter
        (fun p => filters p && clearsFloor (sim q) minScore p) = [] := by
      rw [List.filter_eq_nil_iff]
      intro p hp
      rw [hfloor p hp]
      simp
    rw [hfilt]
    simp [List.insertionSort]
  · intro pr hpr
    unfold search at hpr
    have h1 : pr ∈ List.insertionSort rankRel
        ((catalog.filter fun p =>
          filters p && clearsFloor (sim q) minScore p).map
          fun p => (p, sim q p)) := List.mem_of_mem_take hpr
    rw [List.mem_insertionSort] at h1
    rcases List.mem_map.mp h1 with ⟨p, _, hp⟩
    rw [← hp]

/-- C2 witness: the contract at a concrete catalog and query. -/
theorem search_contract_witness :
    (1 : Nat) ≤ 5 ∧
    ((search (fun _ p => (p.id : ℚ)) "wireless earbuds" 0 (fun _ => true)
        [⟨1, "Wireless Bluetooth Earbuds", "earbuds", "Electronics",
          (69.99 : ℚ)⟩] 5).length ≤ 5 ∧
      List.Sorted rankRel (search (fun _ p => (p.id : ℚ)) "wireless earbuds" 0
        (fun _ => true) [⟨1, "Wireless Bluetooth Earbuds", "earbuds",
          "Electronics", (69.99 : ℚ)⟩] 5) ∧
      ((∀ p ∈ [(⟨1, "Wireless Bluetooth Earbuds", "earbuds", "Electronics",
          (69.99 : ℚ)⟩ : Product)],
          clearsFloor ((fun _ p => (p.id : ℚ)) "wireless earbuds") 0 p
            = false) →
        search (fun _ p => (p.id : ℚ)) "wireless earbuds" 0 (fun _ => true)
          [⟨1, "Wireless Bluetooth Earbuds", "earbuds", "Electronics",
            (69.99 : ℚ)⟩] 5 = []) ∧
      (∀ pr ∈ search (fun _ p => (p.id : ℚ)) "wireless earbuds" 0
          (fun _ => true) [⟨1, "Wireless Bluetooth Earbuds", "earbuds",
            "Electronics", (69.99 : ℚ)⟩] 5,
          pr.2 = (fun _ p => (p.id : ℚ)) "wireless earbuds" pr.1)) :=
  ⟨by omega,
    search_contract (fun _ p => (p.id : ℚ)) "wireless earbuds" 0
      (fun _ => true)
      [⟨1, "Wireless Bluetooth Earbuds", "earbuds", "Electronics",
        (69.99 : ℚ)⟩] 5 (by omega)⟩

/-- C5: a successful `ensureIndex` leaves a state whose stored hash is the
catalog hash, so a second run on the unchanged catalog is a cache hit
returning the same handle unchanged (identical metadata); and for any stored
state the run is a cache hit (no rebuild) iff the stored hash equals the
current catalog hash. -/
theorem ensureIndex_idempotent (hash : List Product → Nat)
    (embed : String → Except Unit (List ℚ)) (catalog : List Product)
    (current : Option IndexData) (st : IndexData) (b : Bool)
    (h1 : ensureIndex hash embed catalog current = .ok (st, b)) :
    ensureIndex hash embed catalog (some st) = .ok (st, false) ∧
    st.sourceHash = hash catalog ∧
    (∀ st2 : IndexData,
      ensureIndex hash embed catalog (some st2) = .ok (st2, false) ↔
        st2.sourceHash = hash catalog) := by
  have key : ∀ st2 : IndexData,
      ensureIndex hash embed catalog (some st2) = .ok (st2, false) ↔
        st2.sourceHash = hash catalog := by
    intro st2
    constructor
    · intro h
      by_contra hne
      unfold ensureIndex at h
      simp only [if_neg hne] at h
      cases hb : buildVectors embed catalog with
      | ok vecs => rw [hb] at h; simp at h
      | error e => rw [hb] at h; simp at h
    · intro he
      unfold ensureIndex
      simp only [if_pos he]
  have hhash : st.sourceHash = hash catalog := by
    unfold ensureIndex at h1
    cases current with
    | none =>
      simp only at h1
      cases hb : buildVectors embed catalog with
      | ok vecs =>
        rw [hb] at h1
        simp only [Except.ok.injEq, Prod.mk.injEq] at h1
        rw [← h1.1]
      | error e => rw [hb] at h1; simp at h1
    | some st0 =>
      simp only at h1
      by_cases hc : st0.sourceHash = hash catalog
      · rw [if_pos hc] at h1
        simp only [Except.ok.injEq, Prod.mk.injEq] at h1
        rw [← h1.1]
        exact hc
      · rw [if_neg hc] at h1
        cases hb : buildVectors embed catalog with
        | ok vecs =>
          rw [hb] at h1
          simp only [Except.ok.injEq, Prod.mk.injEq] at h1
          rw [← h1.1]
        | error e => rw [hb] at h1; simp at h1
  exact ⟨(key st).mpr hhash, hhash, key⟩

/-- C5 witness: running `ensureIndex` twice on an unchanged one-product
catalog; the first run rebuilds, the second is a cache hit on the same
handle. -/
theorem ensureIndex_idempotent_witness :
    ensureIndex (fun c => c.length) (fun _ => .ok [1])
        [⟨1, "Earbuds", "d", "Electronics", (1 : ℚ)⟩]
        (some ⟨1, 1, 1, [[1]], [1]⟩) = .ok (⟨1, 1, 1, [[1]], [1]⟩, false) ∧
    (⟨1, 1, 1, [[1]], [1]⟩ : IndexData).sourceHash
      = (fun (c : List Product) => c.length)
          [⟨1, "Earbuds", "d", "Electronics", (1 : ℚ)⟩] ∧
    (∀ st2 : IndexData,
      ensureIndex (fun c => c.length) (fun _ => .ok [1])
          [⟨1, "Earbuds", "d", "Electronics", (1 : ℚ)⟩] (some st2)
        = .ok (st2, false) ↔
        st2.sourceHash = (fun (c : List Product) => c.length)
          [⟨1, "Earbuds", "d", "Electronics", (1 : ℚ)⟩]) :=
  ensureIndex_idempotent (fun c => c.length) (fun _ => .ok [1])
    [⟨1, "Earbuds", "d", "Electronics", (1 : ℚ)⟩] none
    ⟨1, 1, 1, [[1]], [1]⟩ true (by rfl)

/-- C6: when the stored hash differs from the catalog hash (a rebuild is
required) and the embedding service is unreachable, `ensureIndex` fails with
IndexBuildError and the previously built index keeps serving unchanged: the
serving state still holds the old vectors, id mapping, hash and dimension. -/
theorem ensureIndex_failure_preserves (hash : List Product → Nat)
    (embed : String → Except Unit (List ℚ)) (catalog : List Product)
    (st : IndexData) (hmiss : st.sourceHash ≠ hash catalog)
    (hfail : ∀ t, embed t = .error ()) (hne : catalog ≠ []) :
    ensureIndex hash embed catalog (some st)
      = .error IndexBuildError.embeddingUnreachable ∧
    servingIndex hash embed catalog (some st)
      = (some st, some IndexBuildError.embeddingUnreachable) := by
  have hbuild : buildVectors embed catalog = .error () := by
    cases catalog with
    | nil => exact absurd rfl hne
    | cons p ps =>
      unfold buildVectors
      rw [hfail (productText p)]
  have hmain : ensureIndex hash embed catalog (some st)
      = .error IndexBuildError.embeddingUnreachable := by
    simp only [ensureIndex]
    rw [if_neg hmiss, hbuild]
  refine ⟨hmain, ?_⟩
  unfold servingIndex
  rw [hmain]

/-- C6 witness: an unreachable embedding service during a required rebuild
leaves the stored one-entry index serving. -/
theorem ensureIndex_failure_preserves_witness :
    ensureIndex (fun _ => 2) (fun _ => .error ())
        [⟨1, "Earbuds", "d", "Electronics", (1 : ℚ)⟩]
        (some ⟨1, 1, 1, [[1]], [1]⟩)
      = .error IndexBuildError.embeddingUnreachable ∧
    servingIndex (fun _ => 2) (fun _ => .error ())
        [⟨1, "Earbuds", "d", "Electronics", (1 : ℚ)⟩]
        (some ⟨1, 1, 1, [[1]], [1]⟩)
      = (some ⟨1, 1, 1, [[1]], [1]⟩,
          some IndexBuildError.embeddingUnreachable) :=
  ensureIndex_failure_preserves (fun _ => 2) (fun _ => .error ())
    [⟨1, "Earbuds", "d", "Electronics", (1 : ℚ)⟩] ⟨1, 1, 1, [[1]], [1]⟩
    (by decide) (fun _ => rfl) (by simp)

/-! ## Chat client (frontend/src/components/Chatbot.jsx, frontend/src/utils/api.js) -/

/-- An HTTP request the client would issue: target path and request body. -/
structure ApiRequest where
  path : String
  body : String
  deriving DecidableEq

/-- From api.js: the `chatbotAPI` module.  It defines only `sendMessage`
(POST `${API_BASE_URL}/auth/chatbot/` with body `{ message }`); there is no
`clearMemory` member, modelled as `none`. -/
structure ChatbotAPIModule where
  sendMessage : Option (String → ApiRequest)
  clearMemory : Option (Unit → ApiRequest)

def chatbotAPI : ChatbotAPIModule :=
  { sendMessage := some fun m => ⟨"/api/auth/chatbot/", m⟩
    clearMemory := none }

structure ChatMessage where
  id : Nat
  text : String
  isBot : Bool
  isTyping : Bool
  deriving DecidableEq

/-- The component state of Chatbot.jsx that the handlers read and write:
`messages`, `inputMessage`, `loading`, and whether a typing animation is in
progress (`typingMessage` non-null). -/
structure ChatState where
  messages : List ChatMessage
  inputMessage : String
  loading : Bool
  typingActive : Bool
  deriving DecidableEq

/-- The single greeting message Chatbot.jsx initialises and resets to. -/
def initialGreeting : ChatMessage :=
  ⟨1, "Hello! I'm your AI assistant. How can I help you with our products today?",
    true, false⟩

/-- The greeting `clearMemory` would set after a successful API call. -/
def clearedGreeting : ChatMessage :=
  ⟨1, "Hello! I'm your AI assistant. My memory has been cleared and we're starting fresh. How can I help you with our products today?",
    true, false⟩

/-- From Chatbot.jsx `clearChat`: stop any ongoing typing and reset the
message list to the single greeting. -/
def clearChat (st : ChatState) : ChatState :=
  { st with messages := [initialGreeting], typingActive := false }

/-- From Chatbot.jsx `clearMemory`: `await chatbotAPI.clearMemory()` — when
the member is defined the try-branch clears the chat and sets the
memory-cleared greeting after issuing the request; since api.js defines no
`clearMemory`, the call throws, the catch branch runs and only `clearChat()`
executes, with no request issued.  Returns the new state and the list of
HTTP requests issued. -/
def clearMemoryHandler (st : ChatState) : ChatState × List ApiRequest :=
  match chatbotAPI.clearMemory with
  | some f => ({ clearChat st with messages := [clearedGreeting] }, [f ()])
  | none => (clearChat st, [])

/-- From Chatbot.jsx `sendMessage`: guard
`if (!inputMessage.trim() || loading || typingMessage) return;`, then append
the user message and a typing placeholder, clear the input, set loading, and
POST the captured input through `chatbotAPI.sendMessage`.  Modelled up to the
dispatch of the request (`now` stands for `Date.now()`). -/
def sendMessageHandler (now : Nat) (st : ChatState) :
    ChatState × List ApiRequest :=
  if isBlank st.inputMessage || st.loading || st.typingActive then (st, [])
  else
    match chatbotAPI.sendMessage with
    | some f =>
      ({ st with
          messages := st.messages ++
            [⟨now, st.inputMessage, false, false⟩, ⟨now + 1, "", true, true⟩]
          inputMessage := ""
          loading := true }, [f st.inputMessage])
    | none => (st, [])

/-! ### Theorems: C8, C10 -/

/-- C8: api.js defines no `clearMemory` member on chatbotAPI, so every
invocation of the Chatbot `clearMemory` handler takes the catch branch:
it issues no HTTP request and resets the local chat to the single default
greeting message. -/
theorem clearMemory_no_request_resets_chat (st : ChatState) :
    chatbotAPI.clearMemory = none ∧
    (clearMemoryHandler st).2 = [] ∧
    (clearMemoryHandler st).1.messages = [initialGreeting] := by
  refine ⟨rfl, ?_, ?_⟩ <;> rfl

/-- C10: `sendMessage` is a no-op (state unchanged, no request issued) when
the input is blank, a request is loading, or a typing animation is running;
and any request it ever issues carries a non-blank message body, so the
client never sends an empty message to the chat endpoint. -/
theorem sendMessage_blank_noop (now : Nat) (st : ChatState) :
    ((isBlank st.inputMessage || st.loading || st.typingActive) = true →
      sendMessageHandler now st = (st, [])) ∧
    (∀ req ∈ (sendMessageHandler now st).2, isBlank req.body = false) := by
  constructor
  · intro h
    unfold sendMessageHandler
    rw [if_pos h]
  · intro req hreq
    unfold sendMessageHandler at hreq
    by_cases h : isBlank st.inputMessage || st.loading || st.typingActive
    · rw [if_pos h] at hreq
      simp at hreq
    · rw [if_neg h] at hreq
      simp only [chatbotAPI, List.mem_singleton] at hreq
      rw [hreq]
      simp only [Bool.or_eq_true, not_or, Bool.not_eq_true] at h
      exact h.1.1

/-- C10 witness: a blank input is a no-op, and the issued requests of a
non-blank send are non-blank. -/
theorem sendMessage_blank_noop_witness :
    sendMessageHandler 3 ⟨[initialGreeting], "   ", false, false⟩
      = (⟨[initialGreeting], "   ", false, false⟩, []) ∧
    (∀ req ∈ (sendMessageHandler 3
        ⟨[initialGreeting], "hello", false, false⟩).2,
      isBlank req.body = false) :=
  ⟨(sendMessage_blank_noop 3 ⟨[initialGreeting], "   ", false, false⟩).1
      (by decide),
    (sendMessage_blank_noop 3 ⟨[initialGreeting], "hello", false, false⟩).2⟩

/-! ## renderMessageWithLinks (Chatbot.jsx lines 7–70)

The component scans the message text with the regex
`(https?:\/\/localhost:5173\/products\/(\d+))` (global), pushing the plain
text between matches and, for each match, a link element whose displayed text
is the full matched URL; scanning resumes right after each match.  The scan
is embedded over `List Char`: at each position the regex either matches (the
fixed "http"/"https" pattern followed by a maximal non-empty digit run) or
the character is copied into the current plain segment. -/

def urlPatHttp : List Char := "http://localhost:5173/products/".data

def urlPatHttps : List Char := "https://localhost:5173/products/".data

/-- `listStarts pat cs` iff `pat` begins `cs`. -/
def listStarts : List Char → List Char → Bool
  | [], _ => true
  | _ :: _, [] => false
  | p :: ps, c :: cs => p == c && listStarts ps cs

/-- One regex-match attempt at the head of `cs`: on success, the full matched
URL (pattern plus maximal digit run) and the remaining text. -/
def tryUrl (cs : List Char) : Option (List Char × List Char) :=
  if listStarts urlPatHttps cs then
    let after := cs.drop urlPatHttps.length
    if (after.takeWhile Char.isDigit).isEmpty then none
    else some (urlPatHttps ++ after.takeWhile Char.isDigit,
      after.dropWhile Char.isDigit)
  else if listStarts urlPatHttp cs then
    let after := cs.drop urlPatHttp.length
    if (after.takeWhile Char.isDigit).isEmpty then none
    else some (urlPatHttp ++ after.takeWhile Char.isDigit,
      after.dropWhile Char.isDigit)
  else none

/-- A rendered part: a plain text segment or a link (whose displayed text is
its URL). -/
inductive MessagePart where
  | plain (s : List Char)
  | link (url : List Char)
  deriving DecidableEq

def partText : MessagePart → List Char
  | .plain s => s
  | .link u => u

def isLinkPart : MessagePart → Bool
  | .plain _ => false
  | .link _ => true

/-- Prepend a copied character onto the current plain segment (the JS code
accumulates the text between matches into a single slice). -/
def consPlain (c : Char) : List MessagePart → List MessagePart
  | MessagePart.plain s :: ps => MessagePart.plain (c :: s) :: ps
  | ps => MessagePart.plain [c] :: ps

/-- The scan, fuelled for structural recursion; a successful match consumes
at least the pattern, so `fuel = length` always suffices. -/
def renderPartsFuel : Nat → List Char → List MessagePart
  | 0, _ => []
  | _ + 1, [] => []
  | fuel + 1, c :: cs =>
    match tryUrl (c :: cs) with
    | some (url, rest) => MessagePart.link url :: renderPartsFuel fuel rest
    | none => consPlain c (renderPartsFuel fuel cs)

/-- From Chatbot.jsx `renderMessageWithLinks`. -/
def renderMessageWithLinks (s : List Char) : List MessagePart :=
  renderPartsFuel s.length s

/-- Concatenated textual content of the parts (each link displays exactly its
URL). -/
def partsText : List MessagePart → List Char
  | [] => []
  | p :: ps => partText p ++ partsText ps

/-- `u` is a product URL in the sense of the component's regex. -/
def isProductUrl (u : List Char) : Prop :=
  ∃ ds, ds ≠ [] ∧ (∀ c ∈ ds, c.isDigit = true) ∧
    (u = urlPatHttp ++ ds ∨ u = urlPatHttps ++ ds)

/-- `hasUrl s` iff the regex matches somewhere in `s`. -/
def hasUrl : List Char → Bool
  | [] => false
  | c :: cs => (tryUrl (c :: cs)).isSome || hasUrl cs

/-! ### Support lemmas for the scan -/

theorem listStarts_decomp {pat cs : List Char} (h : listStarts pat cs = true) :
    cs = pat ++ cs.drop pat.length := by
  induction pat generalizing cs with
  | nil => simp
  | cons p ps ih =>
    cases cs with
    | nil => simp [listStarts] at h
    | cons c cs' =>
      simp only [listStarts, Bool.and_eq_true, beq_iff_eq] at h
      rw [List.length_cons, List.drop_succ_cons, List.cons_append, h.1]
      exact congrArg (c :: ·) (ih h.2)

theorem listStarts_of_append (pat t : List Char) :
    listStarts pat (pat ++ t) = true := by
  induction pat with
  | nil => rfl
  | cons p ps ih => simp [listStarts, ih]

theorem listStarts_length {pat cs : List Char}
    (h : listStarts pat cs = true) : pat.length ≤ cs.length := by
  rw [listStarts_decomp h, List.length_append]
  omega

theorem listStarts_extend {pat xs : List Char}
    (h : listStarts pat xs = true) (t : List Char) :
    listStarts pat (xs ++ t) = true := by
  rw [listStarts_decomp h, List.append_assoc]
  exact listStarts_of_append pat _

theorem listStarts_long {pat xs : List Char} (t : List Char)
    (h : pat.length ≤ xs.length) :
    listStarts pat (xs ++ t) = listStarts pat xs := by
  induction pat generalizing xs with
  | nil => rfl
  | cons p ps ih =>
    cases xs with
    | nil => simp at h
    | cons x xs' =>
      simp only [List.cons_append, listStarts]
      show (p == x && listStarts ps (xs' ++ t)) = (p == x && listStarts ps xs')
      rw [ih (by simpa using h)]

theorem takeWhile_isEmpty_append {p : Char → Bool} {a : List Char}
    (t : List Char) (h : (a.takeWhile p).isEmpty = false) :
    ((a ++ t).takeWhile p).isEmpty = false := by
  cases a with
  | nil => simp [List.takeWhile] at h
  | cons x a' =>
    simp only [List.takeWhile, List.cons_append] at h ⊢
    cases hx : p x with
    | true => simp
    | false =>
      rw [hx] at h
      simp at h

theorem tryUrl_decomp {cs url rest : List Char}
    (h : tryUrl cs = some (url, rest)) :
    cs = url ++ rest ∧ isProductUrl url := by
  unfold tryUrl at h
  by_cases h2 : listStarts urlPatHttps cs = true
  · rw [if_pos h2] at h
    simp only at h
    by_cases h3 : ((cs.drop urlPatHttps.length).takeWhile Char.isDigit).isEmpty
        = true
    · rw [if_pos h3] at h
      simp at h
    · rw [if_neg h3] at h
      simp only [Option.some.injEq, Prod.mk.injEq] at h
      obtain ⟨hu, hr⟩ := h
      constructor
      · rw [← hu, ← hr, List.append_assoc, List.takeWhile_append_dropWhile]
        exact listStarts_decomp h2
      · refine ⟨(cs.drop urlPatHttps.length).takeWhile Char.isDigit, ?_, ?_,
          Or.inr hu.symm⟩
        · intro hemp
          rw [hemp] at h3
          simp at h3
        · intro c hc
          exact List.mem_takeWhile_imp hc
  · rw [if_neg h2] at h
    by_cases h4 : listStarts urlPatHttp cs = true
    · rw [if_pos h4] at h
      simp only at h
      by_cases h3 : ((cs.drop urlPatHttp.length).takeWhile Char.isDigit).isEmpty
          = true
      · rw [if_pos h3] at h
        simp at h
      · rw [if_neg h3] at h
        simp only [Option.some.injEq, Prod.mk.injEq] at h
        obtain ⟨hu, hr⟩ := h
        constructor
        · rw [← hu, ← hr, List.append_assoc, List.takeWhile_append_dropWhile]
          exact listStarts_decomp h4
        · refine ⟨(cs.drop urlPatHttp.length).takeWhile Char.isDigit, ?_, ?_,
            Or.inl hu.symm⟩
          · intro hemp
            rw [hemp] at h3
            simp at h3
          · intro c hc
            exact List.mem_takeWhile_imp hc
    · rw [if_neg h4] at h
      simp at h

theorem tryUrl_rest_lt {cs url rest : List Char}
    (h : tryUrl cs = some (url, rest)) : rest.length < cs.length := by
  obtain ⟨hcs, ds, hne, _, hpat⟩ := tryUrl_decomp h
  have hds : 0 < ds.length := List.length_pos.mpr hne
  rcases hpat with hu | hu <;>
  · rw [hcs, hu]
    simp only [List.length_append]
    omega

theorem tryUrl_extend {xs url rest : List Char}
    (h : tryUrl xs = some (url, rest)) (t : List Char) :
    (tryUrl (xs ++ t)).isSome = true := by
  unfold tryUrl at h ⊢
  by_cases h2 : listStarts urlPatHttps xs = true
  · rw [if_pos h2] at h
    simp only at h
    by_cases h3 : ((xs.drop urlPatHttps.length).takeWhile Char.isDigit).isEmpty
        = true
    · rw [if_pos h3] at h
      simp at h
    · rw [if_pos (listStarts_extend h2 t)]
      have hdrop : (xs ++ t).drop urlPatHttps.length
          = xs.drop urlPatHttps.length ++ t := by
        rw [List.drop_append_eq_append_drop,
          Nat.sub_eq_zero_of_le (listStarts_length h2), List.drop_zero]
      rw [hdrop]
      rw [if_neg (by
        rw [takeWhile_isEmpty_append t (Bool.not_eq_true _ ▸ h3)]
        simp)]
      rfl
  · rw [if_neg h2] at h
    by_cases h4 : listStarts urlPatHttp xs = true
    · rw [if_pos h4] at h
      simp only at h
      by_cases h3 : ((xs.drop urlPatHttp.length).takeWhile Char.isDigit).isEmpty
          = true
      · rw [if_pos h3] at h
        simp at h
      · have hxslen : urlPatHttps.length ≤ xs.length := by
          have h1 := listStarts_length h4
          have hafter : (xs.drop urlPatHttp.length) ≠ [] := by
            intro he
            rw [he] at h3
            simp [List.takeWhile] at h3
          have h2len : 0 < (xs.drop urlPatHttp.length).length :=
            List.length_pos.mpr hafter
          rw [List.length_drop] at h2len
          have : urlPatHttp.length = 31 := by decide
          have : urlPatHttps.length = 32 := by decide
          omega
        rw [if_neg (by rw [listStarts_long t hxslen]; exact h2)]
        rw [if_pos (listStarts_extend h4 t)]
        have hdrop : (xs ++ t).drop urlPatHttp.length
            = xs.drop urlPatHttp.length ++ t := by
          rw [List.drop_append_eq_append_drop,
            Nat.sub_eq_zero_of_le (listStarts_length h4), List.drop_zero]
        rw [hdrop]
        rw [if_neg (by
          rw [takeWhile_isEmpty_append t (Bool.not_eq_true _ ▸ h3)]
          simp)]
        rfl
    · rw [if_neg h4] at h
      simp at h

theorem partsText_consPlain (c : Char) (ps : List MessagePart) :
    partsText (consPlain c ps) = c :: partsText ps := by
  cases ps with
  | nil => rfl
  | cons q qs =>
    cases q with
    | plain s => rfl
    | link u => rfl

theorem mem_consPlain {c : Char} {ps : List MessagePart} {p : MessagePart}
    (hp : p ∈ consPlain c ps) :
    p ∈ ps ∨ p = .plain [c] ∨
      ∃ t tl, ps = .plain t :: tl ∧ p = .plain (c :: t) := by
  cases ps with
  | nil =>
    simp only [consPlain, List.mem_singleton] at hp
    exact Or.inr (Or.inl hp)
  | cons q qs =>
    cases q with
    | plain s =>
      rcases List.mem_cons.mp hp with h | h
      · exact Or.inr (Or.inr ⟨s, qs, rfl, h⟩)
      · exact Or.inl (List.mem_cons_of_mem _ h)
    | link u =>
      rcases List.mem_cons.mp hp with h | h
      · exact Or.inr (Or.inl h)
      · exact Or.inl h

theorem renderPartsFuel_spec (fuel : Nat) :
    ∀ s : List Char, s.length ≤ fuel →
    partsText (renderPartsFuel fuel s) = s ∧
    (∀ p ∈ renderPartsFuel fuel s,
      isLinkPart p = true → isProductUrl (partText p)) ∧
    (∀ p ∈ renderPartsFuel fuel s,
      isLinkPart p = false → hasUrl (partText p) = false) := by
  induction fuel with
  | zero =>
    intro s hs
    have hnil : s = [] := List.length_eq_zero.mp (Nat.le_zero.mp hs)
    subst hnil
    refine ⟨rfl, ?_, ?_⟩ <;> intro p hp <;> simp [renderPartsFuel] at hp
  | succ fuel ih =>
    intro s hs
    cases s with
    | nil =>
      refine ⟨rfl, ?_, ?_⟩ <;> intro p hp <;> simp [renderPartsFuel] at hp
    | cons c cs =>
      cases htry : tryUrl (c :: cs) with
      | some pr =>
        obtain ⟨url, rest⟩ := pr
        have hdec := tryUrl_decomp htry
        have hlt := tryUrl_rest_lt htry
        have hrest : rest.length ≤ fuel := by
          simp only [List.length_cons] at hs hlt
          omega
        obtain ⟨ihA, ihB, ihC⟩ := ih rest hrest
        have hunf : renderPartsFuel (fuel + 1) (c :: cs)
            = MessagePart.link url :: renderPartsFuel fuel rest := by
          simp [renderPartsFuel, htry]
        rw [hunf]
        refine ⟨?_, ?_, ?_⟩
        · simp only [partsText, partText]
          rw [ihA]
          exact hdec.1.symm
        · intro p hp hl
          rcases List.mem_cons.mp hp with h | h
          · subst h
            exact hdec.2
          · exact ihB p h hl
        · intro p hp hl
          rcases List.mem_cons.mp hp with h | h
          · subst h
            simp [isLinkPart] at hl
          · exact ihC p h hl
      | none =>
        have hcs : cs.length ≤ fuel := by
          simp only [List.length_cons] at hs
          omega
        obtain ⟨ihA, ihB, ihC⟩ := ih cs hcs
        have hunf : renderPartsFuel (fuel + 1) (c :: cs)
            = consPlain c (renderPartsFuel fuel cs) := by
          simp [renderPartsFuel, htry]
        rw [hunf]
        refine ⟨?_, ?_, ?_⟩
        · rw [partsText_consPlain, ihA]
        · intro p hp hl
          rcases mem_consPlain hp with h | h | ⟨t, tl, hps, hp2⟩
          · exact ihB p h hl
          · subst h
            simp [isLinkPart] at hl
          · subst hp2
            simp [isLinkPart] at hl
        · intro p hp hl
          rcases mem_consPlain hp with h | h | ⟨t, tl, hps, hp2⟩
          · exact ihC p h hl
          · subst h
            simp only [partText]
            show ((tryUrl [c]).isSome || hasUrl []) = false
            cases ht2 : tryUrl [c] with
            | none => rfl
            | some pr2 =>
              obtain ⟨u2, r2⟩ := pr2
              have hext := tryUrl_extend ht2 cs
              rw [List.singleton_append, htry] at hext
              simp at hext
          · subst hp2
            simp only [partText]
            have htfalse : hasUrl t = false := by
              have hmem : MessagePart.plain t ∈ renderPartsFuel fuel cs := by
                rw [hps]
                exact List.mem_cons_self _ _
              have := ihC (MessagePart.plain t) hmem rfl
              simpa [partText] using this
            show ((tryUrl (c :: t)).isSome || hasUrl t) = false
            rw [htfalse, Bool.or_false]
            cases ht2 : tryUrl (c :: t) with
            | none => rfl
            | some pr2 =>
              obtain ⟨u2, r2⟩ := pr2
              have hw : cs = t ++ partsText tl := by
                rw [← ihA, hps]
                rfl
              have hext := tryUrl_extend ht2 (partsText tl)
              have heq : (c :: t) ++ partsText tl = c :: cs := by
                rw [List.cons_append, ← hw]
              rw [heq, htry] at hext
              simp at hext

/-! ### Theorem: C9 -/

/-- C9: `renderMessageWithLinks` preserves the message content — the
concatenated text of the returned parts (each link displaying exactly its
matched URL) is the input string — and a part is a link exactly for regex
matches: every link part is a product URL
`http(s)://localhost:5173/products/<digits>`, and no plain part contains any
match of the pattern. -/
theorem renderMessageWithLinks_content (s : List Char) :
    partsText (renderMessageWithLinks s) = s ∧
    (∀ p ∈ renderMessageWithLinks s,
      isLinkPart p = true → isProductUrl (partText p)) ∧
    (∀ p ∈ renderMessageWithLinks s,
      isLinkPart p = false → hasUrl (partText p) = false) :=
  renderPartsFuel_spec s.length s (Nat.le_refl _)

/-- C9 witness: a message consisting of a product link followed by plain
text. -/
theorem renderMessageWithLinks_content_witness :
    partsText (renderMessageWithLinks "http://localhost:5173/products/7!".data)
      = "http://localhost:5173/products/7!".data ∧
    isProductUrl (partText
      (MessagePart.link "http://localhost:5173/products/7".data)) ∧
    hasUrl (partText (MessagePart.plain ['!'])) = false :=
  ⟨(renderMessageWithLinks_content "http://localhost:5173/products/7!".data).1,
    (renderMessageWithLinks_content
      "http://localhost:5173/products/7!".data).2.1
      (MessagePart.link "http://localhost:5173/products/7".data)
      (by decide) (by decide),
    (renderMessageWithLinks_content
      "http://localhost:5173/products/7!".data).2.2
      (MessagePart.plain ['!']) (by decide) (by decide)⟩

/-! ## Response Composer link post-processing (spec §4.5)

Modelled from the spec: the Response Composer backend is not in this tree.
"Post-processing: scans the raw model output for product-id markers or bare
mentions and rewrites them into a canonical URL of the fixed shape
`<base>/products/<id>`".  The marker form is taken to be `[product:<id>]`
(`<id>` a non-empty digit run), rewritten to the canonical product URL used
throughout the repository, `http://localhost:5173/products/<id>`. -/

def prodColon : List Char := "product:".data

def markerPat : List Char := "[product:".data

/-- One marker-match attempt at the head of `cs`: on success, the digit run
and the remaining text after the closing bracket. -/
def tryMarker (cs : List Char) : Option (List Char × List Char) :=
  if listStarts markerPat cs then
    let after := cs.drop markerPat.length
    match after.dropWhile Char.isDigit with
    | ']' :: rest =>
      if (after.takeWhile Char.isDigit).isEmpty then none
      else some (after.takeWhile Char.isDigit, rest)
    | _ => none
  else none

/-- The scan, fuelled for structural recursion; a match consumes at least the
marker, so `fuel = length` always suffices. -/
def rewriteLinksFuel : Nat → List Char → List Char
  | 0, s => s
  | _ + 1, [] => []
  | fuel + 1, c :: cs =>
    match tryMarker (c :: cs) with
    | some (ds, rest) => urlPatHttp ++ ds ++ rewriteLinksFuel fuel rest
    | none => c :: rewriteLinksFuel fuel cs

/-- The Response Composer's link post-processing. -/
def rewriteProductLinks (s : List Char) : List Char :=
  rewriteLinksFuel s.length s

/-- `hasMarker s` iff a product-id marker occurs somewhere in `s`. -/
def hasMarker : List Char → Bool
  | [] => false
  | c :: cs => (tryMarker (c :: cs)).isSome || hasMarker cs

/-! ### Support lemmas for the rewriter -/

theorem markerPat_eq : markerPat = '[' :: prodColon := by decide

theorem listStarts_cons (p z : Char) (ps zs : List Char) :
    listStarts (p :: ps) (z :: zs) = (p == z && listStarts ps zs) := rfl

theorem markerPat_starts (zs : List Char) :
    listStarts markerPat ('[' :: zs) = listStarts prodColon zs := by
  rw [markerPat_eq, listStarts_cons]
  simp

theorem digit_ne_lbracket {c : Char} (h : Char.isDigit c = true) : c ≠ '[' := by
  intro he
  rw [he] at h
  exact absurd h (by decide)

theorem dropWhile_head_false {p : Char → Bool} {l : List Char} {y : Char}
    {r : List Char} (h : l.dropWhile p = y :: r) : p y = false := by
  induction l with
  | nil => simp [List.dropWhile] at h
  | cons a l' ih =>
    rw [List.dropWhile_cons] at h
    by_cases ha : p a = true
    · rw [if_pos ha] at h
      exact ih h
    · rw [if_neg ha] at h
      cases h
      simpa using ha

theorem dropWhile_all {p : Char → Bool} {l : List Char}
    (h : ∀ x ∈ l, p x = true) : l.dropWhile p = [] := by
  induction l with
  | nil => rfl
  | cons a l' ih =>
    rw [List.dropWhile_cons, if_pos (h a (List.mem_cons_self _ _))]
    exact ih fun x hx => h x (List.mem_cons_of_mem _ hx)

theorem dropWhile_append_all {p : Char → Bool} {a : List Char}
    (h : ∀ x ∈ a, p x = true) (b : List Char) :
    (a ++ b).dropWhile p = b.dropWhile p := by
  induction a with
  | nil => rfl
  | cons x a' ih =>
    rw [List.cons_append, List.dropWhile_cons,
      if_pos (h x (List.mem_cons_self _ _))]
    exact ih fun y hy => h y (List.mem_cons_of_mem _ hy)

theorem tryMarker_decomp {cs ds rest : List Char}
    (h : tryMarker cs = some (ds, rest)) :
    cs = markerPat ++ (ds ++ ']' :: rest) ∧ ds ≠ [] ∧
      ∀ c ∈ ds, Char.isDigit c = true := by
  unfold tryMarker at h
  by_cases hs : listStarts markerPat cs = true
  · rw [if_pos hs] at h
    simp only at h
    split at h
    · rename_i rest1 heq
      by_cases hemp : ((cs.drop markerPat.length).takeWhile Char.isDigit).isEmpty
          = true
      · rw [if_pos hemp] at h
        cases h
      · rw [if_neg hemp] at h
        simp only [Option.some.injEq, Prod.mk.injEq] at h
        obtain ⟨hds, hrest⟩ := h
        subst hds
        subst hrest
        refine ⟨?_, ?_, ?_⟩
        · rw [← heq, List.takeWhile_append_dropWhile]
          exact listStarts_decomp hs
        · intro hnil
          exact hemp (by rw [hnil]; rfl)
        · intro c hc
          exact List.mem_takeWhile_imp hc
    · cases h
  · rw [if_neg hs] at h
    cases h

theorem tryMarker_rest_lt {cs ds rest : List Char}
    (h : tryMarker cs = some (ds, rest)) : rest.length < cs.length := by
  obtain ⟨hcs, hne, _⟩ := tryMarker_decomp h
  have hm : markerPat.length = 9 := by decide
  have hd : 0 < ds.length := List.length_pos.mpr hne
  rw [hcs]
  simp only [List.length_append, List.length_cons]
  omega

theorem tryMarker_head {c : Char} {cs ds rest : List Char}
    (h : tryMarker (c :: cs) = some (ds, rest)) : c = '[' := by
  have h1 := (tryMarker_decomp h).1
  rw [markerPat_eq, List.cons_append] at h1
  injection h1 with h2 _

theorem tryMarker_none_of_ne {c : Char} (cs : List Char) (h : c ≠ '[') :
    tryMarker (c :: cs) = none := by
  have hb : ('[' == c) = false := by
    rw [beq_eq_false_iff_ne]
    exact fun he => h he.symm
  have hs : listStarts markerPat (c :: cs) = false := by
    rw [markerPat_eq, listStarts_cons, hb, Bool.false_and]
  unfold tryMarker
  rw [hs]
  simp

theorem hasMarker_append {xs : List Char} (hxs : ∀ c ∈ xs, c ≠ '[')
    (ys : List Char) : hasMarker (xs ++ ys) = hasMarker ys := by
  induction xs with
  | nil => rfl
  | cons x xs' ih =>
    rw [List.cons_append]
    show ((tryMarker (x :: (xs' ++ ys))).isSome || hasMarker (xs' ++ ys))
      = hasMarker ys
    rw [tryMarker_none_of_ne _ (hxs x (List.mem_cons_self _ _)),
      ih fun c hc => hxs c (List.mem_cons_of_mem _ hc)]
    rfl

theorem rewriteFI (f1 : Nat) : ∀ (s : List Char) (f2 : Nat),
    s.length ≤ f1 → s.length ≤ f2 →
    rewriteLinksFuel f1 s = rewriteLinksFuel f2 s := by
  induction f1 with
  | zero =>
    intro s f2 h1 _
    have hnil : s = [] := List.length_eq_zero.mp (Nat.le_zero.mp h1)
    subst hnil
    cases f2 <;> rfl
  | succ f ih =>
    intro s f2 h1 h2
    cases s with
    | nil => cases f2 <;> rfl
    | cons c cs =>
      cases f2 with
      | zero => simp at h2
      | succ g =>
        cases htm : tryMarker (c :: cs) with
        | some pr =>
          obtain ⟨ds, rest⟩ := pr
          have hlen := tryMarker_rest_lt htm
          simp only [List.length_cons] at h1 h2 hlen
          simp only [rewriteLinksFuel, htm]
          rw [ih rest g (by omega) (by omega)]
        | none =>
          simp only [List.length_cons] at h1 h2
          simp only [rewriteLinksFuel, htm]
          rw [ih cs g (by omega) (by omega)]

theorem rewrite_nil : rewriteProductLinks [] = [] := rfl

theorem rewrite_eq_none {c : Char} {cs : List Char}
    (h : tryMarker (c :: cs) = none) :
    rewriteProductLinks (c :: cs) = c :: rewriteProductLinks cs := by
  unfold rewriteProductLinks
  simp only [List.length_cons, rewriteLinksFuel, h]

theorem rewrite_eq_some {c : Char} {cs ds rest : List Char}
    (h : tryMarker (c :: cs) = some (ds, rest)) :
    rewriteProductLinks (c :: cs)
      = urlPatHttp ++ ds ++ rewriteProductLinks rest := by
  unfold rewriteProductLinks
  simp only [List.length_cons, rewriteLinksFuel, h]
  have hlen := tryMarker_rest_lt h
  simp only [List.length_cons] at hlen
  rw [rewriteFI cs.length rest rest.length (by omega) (by omega)]

theorem rewrite_copy {xs : List Char} (hxs : ∀ c ∈ xs, c ≠ '[')
    (ys : List Char) :
    rewriteProductLinks (xs ++ ys) = xs ++ rewriteProductLinks ys := by
  induction xs with
  | nil => rfl
  | cons x xs' ih =>
    rw [List.cons_append,
      rewrite_eq_none (tryMarker_none_of_ne _ (hxs x (List.mem_cons_self _ _))),
      ih fun c hc => hxs c (List.mem_cons_of_mem _ hc)]
    rfl

def urlTail : List Char := "ttp://localhost:5173/products/".data

theorem urlPatHttp_cons : urlPatHttp = 'h' :: urlTail := by decide

theorem rewrite_head (y : Char) (ys : List Char) :
    ∃ z t2, rewriteProductLinks (y :: ys) = z :: t2 ∧ (z = y ∨ z = 'h') := by
  cases htm : tryMarker (y :: ys) with
  | none => exact ⟨y, rewriteProductLinks ys, rewrite_eq_none htm, Or.inl rfl⟩
  | some pr =>
    obtain ⟨ds, rest⟩ := pr
    refine ⟨'h', urlTail ++ ds ++ rewriteProductLinks rest, ?_, Or.inr rfl⟩
    rw [rewrite_eq_some htm, urlPatHttp_cons]
    simp

theorem listStarts_rewrite_false (cs : List Char) : ∀ pat : List Char,
    '[' ∉ pat → 'h' ∉ pat → listStarts pat cs = false →
    listStarts pat (rewriteProductLinks cs) = false := by
  induction cs with
  | nil =>
    intro pat _ _ h
    exact h
  | cons c cs' ih =>
    intro pat hbr hh h
    cases pat with
    | nil => simp [listStarts] at h
    | cons p pat' =>
      cases htm : tryMarker (c :: cs') with
      | some pr =>
        obtain ⟨ds, rest⟩ := pr
        rw [rewrite_eq_some htm, urlPatHttp_cons, List.cons_append,
          List.cons_append, listStarts_cons]
        have hp : (p == 'h') = false := by
          rw [beq_eq_false_iff_ne]
          intro he
          exact hh (he ▸ List.mem_cons_self p pat')
        rw [hp, Bool.false_and]
      | none =>
        rw [rewrite_eq_none htm, listStarts_cons]
        rw [listStarts_cons] at h
        by_cases hpc : p = c
        · subst hpc
          have h2 : listStarts pat' cs' = false := by
            simpa using h
          cases pat' with
          | nil => simp [listStarts] at h2
          | cons q qat =>
            rw [beq_self_eq_true, Bool.true_and]
            exact ih (q :: qat) (fun hm => hbr (List.mem_cons_of_mem _ hm))
              (fun hm => hh (List.mem_cons_of_mem _ hm)) h2
        · rw [beq_eq_false_iff_ne.mpr hpc, Bool.false_and]

theorem tryMarker_none_of_starts_false {x : List Char}
    (h : listStarts markerPat x = false) : tryMarker x = none := by
  unfold tryMarker
  rw [h]
  simp

theorem tryMarker_marker (zs : List Char) :
    tryMarker ('[' :: prodColon ++ zs)
      = match zs.dropWhile Char.isDigit with
        | ']' :: rest =>
          if (zs.takeWhile Char.isDigit).isEmpty then none
          else some (zs.takeWhile Char.isDigit, rest)
        | _ => none := by
  have hdrop : (('[' :: prodColon ++ zs).drop markerPat.length) = zs := by
    have hm : markerPat.length = 9 := by decide
    rw [hm]
    show (prodColon ++ zs).drop 8 = zs
    rw [List.drop_append_eq_append_drop]
    have e1 : prodColon.drop 8 = [] := by decide
    have e2 : 8 - prodColon.length = 0 := by decide
    rw [e1, e2, List.drop_zero, List.nil_append]
  unfold tryMarker
  rw [if_pos (by
    show listStarts markerPat ('[' :: (prodColon ++ zs)) = true
    rw [markerPat_starts]
    exact listStarts_of_append prodColon zs)]
  simp only [hdrop]

/-- The central lemma: a failed marker match at a position keeps failing
after the tail is rewritten (rewriting never manufactures a new marker). -/
theorem tryMarker_rewrite_none {c : Char} {cs : List Char}
    (h : tryMarker (c :: cs) = none) :
    tryMarker (c :: rewriteProductLinks cs) = none := by
  by_cases hc : c = '['
  · subst hc
    by_cases hpc : listStarts prodColon cs = true
    · have hcs := listStarts_decomp hpc
      rw [hcs] at h
      rw [show ('[' : Char) :: (prodColon ++ cs.drop prodColon.length)
          = '[' :: prodColon ++ cs.drop prodColon.length from rfl,
        tryMarker_marker] at h
      have hA : ∀ rest0,
          (cs.drop prodColon.length).dropWhile Char.isDigit = ']' :: rest0 →
          ((cs.drop prodColon.length).takeWhile Char.isDigit).isEmpty
            = true := by
        intro rest0 hrw
        rw [hrw] at h
        split at h
        · rename_i rest1 heq1
          by_contra hne
          rw [if_neg hne] at h
          cases h
        · rename_i hno
          exact absurd rfl (hno rest0)
      have hcopy : ∀ x ∈ prodColon, x ≠ '[' := by decide
      have hR : rewriteProductLinks cs
          = prodColon ++ rewriteProductLinks (cs.drop prodColon.length) := by
        conv_lhs => rw [hcs]
        exact rewrite_copy hcopy _
      rw [hR, show ('[' : Char) ::
          (prodColon ++ rewriteProductLinks (cs.drop prodColon.length))
          = '[' :: prodColon ++ rewriteProductLinks (cs.drop prodColon.length)
          from rfl, tryMarker_marker]
      split
      · rename_i rest heq
        rw [if_pos ?_]
        have hsplit : cs.drop prodColon.length
            = (cs.drop prodColon.length).takeWhile Char.isDigit
              ++ (cs.drop prodColon.length).dropWhile Char.isDigit :=
          (List.takeWhile_append_dropWhile Char.isDigit
            (cs.drop prodColon.length)).symm
        have hRtail : rewriteProductLinks (cs.drop prodColon.length)
            = (cs.drop prodColon.length).takeWhile Char.isDigit
              ++ rewriteProductLinks
                ((cs.drop prodColon.length).dropWhile Char.isDigit) := by
          conv_lhs => rw [hsplit]
          exact rewrite_copy
            (fun x hx => digit_ne_lbracket (List.mem_takeWhile_imp hx)) _
        cases hr0 : (cs.drop prodColon.length).dropWhile Char.isDigit with
        | nil =>
          rw [hr0, rewrite_nil, List.append_nil] at hRtail
          rw [hRtail] at heq
          rw [dropWhile_all (fun x hx => List.mem_takeWhile_imp hx)] at heq
          cases heq
        | cons y r =>
          obtain ⟨z, t2, hzt, hz⟩ := rewrite_head y r
          have hy : Char.isDigit y = false := dropWhile_head_false hr0
          have hzd : Char.isDigit z = false := by
            rcases hz with rfl | rfl
            · exact hy
            · decide
          rw [hr0, hzt] at hRtail
          have hdrw : (rewriteProductLinks
              (cs.drop prodColon.length)).dropWhile Char.isDigit
              = z :: t2 := by
            rw [hRtail,
              dropWhile_append_all (fun x hx => List.mem_takeWhile_imp hx),
              List.dropWhile_cons, hzd]
            simp
          rw [hdrw] at heq
          have hz2 : z = ']' := by injection heq
          rcases hz with rfl | rfl
          · have hemp := hA r (by rw [hr0, hz2])
            have hds0 : (cs.drop prodColon.length).takeWhile Char.isDigit
                = [] := by
              simpa [List.isEmpty_iff] using hemp
            rw [hRtail, hds0, List.nil_append, List.takeWhile_cons, hzd]
            simp
          · exact absurd hz2 (by decide)
      · rfl
    · have hf : listStarts prodColon cs = false := by
        rw [← Bool.not_eq_true]
        exact hpc
      have hf2 := listStarts_rewrite_false cs prodColon (by decide) (by decide)
        hf
      exact tryMarker_none_of_starts_false (by rw [markerPat_starts]; exact hf2)
  · exact tryMarker_none_of_ne _ hc

theorem hasMarker_rewrite (n : Nat) : ∀ s : List Char, s.length ≤ n →
    hasMarker (rewriteProductLinks s) = false := by
  induction n with
  | zero =>
    intro s hs
    have hnil : s = [] := List.length_eq_zero.mp (Nat.le_zero.mp hs)
    subst hnil
    rfl
  | succ n ih =>
    intro s hs
    cases s with
    | nil => rfl
    | cons c cs =>
      cases htm : tryMarker (c :: cs) with
      | some pr =>
        obtain ⟨ds, rest⟩ := pr
        have hdec := tryMarker_decomp htm
        have hlen := tryMarker_rest_lt htm
        simp only [List.length_cons] at hs hlen
        rw [rewrite_eq_some htm, List.append_assoc,
          hasMarker_append ?hno (ds ++ rewriteProductLinks rest),
          hasMarker_append ?hds (rewriteProductLinks rest)]
        case hno => decide
        case hds =>
          intro x hx
          exact digit_ne_lbracket (hdec.2.2 x hx)
        exact ih rest (by omega)
      | none =>
        simp only [List.length_cons] at hs
        rw [rewrite_eq_none htm]
        show ((tryMarker (c :: rewriteProductLinks cs)).isSome
          || hasMarker (rewriteProductLinks cs)) = false
        rw [tryMarker_rewrite_none htm, ih cs (by omega)]
        rfl

theorem rewrite_of_no_marker : ∀ {s : List Char}, hasMarker s = false →
    rewriteProductLinks s = s := by
  intro s
  induction s with
  | nil => intro _; rfl
  | cons c cs ih =>
    intro h
    have h2 : ((tryMarker (c :: cs)).isSome || hasMarker cs) = false := h
    rw [Bool.or_eq_false_iff] at h2
    have htm : tryMarker (c :: cs) = none :=
      Option.not_isSome_iff_eq_none.mp (by rw [h2.1]; simp)
    rw [rewrite_eq_none htm, ih h2.2]

/-! ### Theorem: C4 -/

/-- C4: the Response Composer's link post-processing is idempotent — applying
the product-reference rewriting twice produces the same output as applying it
once (in particular already-rewritten text, which contains no marker, is left
unchanged). -/
theorem rewriteProductLinks_idempotent (s : List Char) :
    rewriteProductLinks (rewriteProductLinks s) = rewriteProductLinks s :=
  rewrite_of_no_marker (hasMarker_rewrite s.length s (Nat.le_refl _))

end AgenticAI
